import Mathlib

/-!
Shallow embedding of the `rust_udp_multicast_test` LAN discovery engine
(`src/multicast_service.rs` and `src/lib.rs`), together with theorems
settling the specification claims about it.

Machine integers (`u8`, `u16`, `i32`) are modelled as `Nat`/`Int`; byte
buffers carrying UTF-8 JSON text are modelled at the Unicode-scalar level
as `List Char` (UTF-8 encoding of a scalar sequence is injective, so
round-trip and field-content claims transfer unchanged). Rust `Instant`
timestamps are modelled as `Nat` ticks with truncated subtraction, matching
`Instant::elapsed`, which never goes negative.
-/

/-- IPv4 address as four octets, mirroring `std::net::Ipv4Addr`. -/
structure Ipv4Addr where
  o0 : Nat
  o1 : Nat
  o2 : Nat
  o3 : Nat
  deriving DecidableEq

/-- Rust `Ipv4Addr::is_loopback`: first octet 127. -/
def Ipv4Addr.is_loopback (a : Ipv4Addr) : Bool := a.o0 == 127

/-- Rust `Ipv4Addr::is_link_local`: 169.254.0.0/16. -/
def Ipv4Addr.is_link_local (a : Ipv4Addr) : Bool := a.o0 == 169 && a.o1 == 254

/-- Rust `Ipv4Addr::is_multicast`: 224.0.0.0/4. -/
def Ipv4Addr.is_multicast (a : Ipv4Addr) : Bool := decide (224 ≤ a.o0) && decide (a.o0 ≤ 239)

/-- Rust `Ipv4Addr::is_unspecified`: 0.0.0.0. -/
def Ipv4Addr.is_unspecified (a : Ipv4Addr) : Bool :=
  a.o0 == 0 && a.o1 == 0 && a.o2 == 0 && a.o3 == 0

/-- Rust `Ipv4Addr::LOCALHOST` (127.0.0.1), the last-resort return value of `get_local_ipv4`. -/
def LOCALHOST : Ipv4Addr := ⟨127, 0, 0, 1⟩

/-- An interface address as enumerated by `local_ip_address::list_afinet_netifas`:
either an IPv4 address or an IPv6 one (which `get_local_ipv4` ignores). -/
inductive IpAddr where
  | v4 (a : Ipv4Addr)
  | v6
  deriving DecidableEq

/-- Function `score_addr` from `multicast_service.rs`: rate an address, higher is better;
loopback/link-local/multicast/unspecified are unusable (-1). -/
def score_addr (a : Ipv4Addr) : Int :=
  if a.is_loopback || a.is_link_local || a.is_multicast || a.is_unspecified then -1
  else if a.o0 == 10 then 80
  else if a.o0 == 172 && decide (16 ≤ a.o1) && decide (a.o1 ≤ 31) then 90
  else if a.o0 == 192 && a.o1 == 168 then 100
  else 10

/-- The main selection loop of `get_local_ipv4`: keep the strictly-highest-scoring
usable address, breaking early once the best score reaches 100. -/
def selectLoop : List IpAddr → Option Ipv4Addr → Int → Option Ipv4Addr
  | [], best, _ => best
  | IpAddr.v6 :: rest, best, bs => selectLoop rest best bs
  | IpAddr.v4 a :: rest, best, bs =>
    if score_addr a < 0 then selectLoop rest best bs
    else
      if bs < score_addr a then
        if 100 ≤ score_addr a then some a
        else selectLoop rest (some a) (score_addr a)
      else
        if 100 ≤ bs then best else selectLoop rest best bs

/-- The fallback loop of `get_local_ipv4`: first IPv4 that is neither loopback
nor link-local (note: multicast/unspecified are NOT excluded here). -/
def fallbackLoop : List IpAddr → Option Ipv4Addr
  | [] => none
  | IpAddr.v6 :: rest => fallbackLoop rest
  | IpAddr.v4 a :: rest =>
    if !a.is_loopback && !a.is_link_local then some a else fallbackLoop rest

/-- Function `get_local_ipv4` from `multicast_service.rs`, as a pure function of the
enumerated interface address list. -/
def get_local_ipv4 (addrs : List IpAddr) : Ipv4Addr :=
  match selectLoop addrs none (-1) with
  | some v4 => v4
  | none =>
    match fallbackLoop addrs with
    | some v4 => v4
    | none => LOCALHOST

/-- The character U+007B, an opening curly bracket. -/
def openBrace : Char := Char.ofNat 123

/-- The character U+007D, a closing curly bracket. -/
def closeBrace : Char := Char.ofNat 125

/-- Decimal digit character for a digit value below 10. -/
def digitChar (d : Nat) : Char :=
  match d with
  | 0 => '0' | 1 => '1' | 2 => '2' | 3 => '3' | 4 => '4'
  | 5 => '5' | 6 => '6' | 7 => '7' | 8 => '8' | _ => '9'

/-- Lowercase hex digit character, as emitted by serde_json escapes. -/
def hexDigitChar (d : Nat) : Char :=
  match d with
  | 0 => '0' | 1 => '1' | 2 => '2' | 3 => '3' | 4 => '4' | 5 => '5' | 6 => '6' | 7 => '7'
  | 8 => '8' | 9 => '9' | 10 => 'a' | 11 => 'b' | 12 => 'c' | 13 => 'd' | 14 => 'e' | _ => 'f'

/-- ASCII decimal digit test. -/
def isDigitChar (c : Char) : Bool := decide (48 ≤ c.toNat) && decide (c.toNat ≤ 57)

/-- Value of a hex digit character (JSON accepts both cases). -/
def hexVal (c : Char) : Option Nat :=
  if decide (48 ≤ c.toNat) && decide (c.toNat ≤ 57) then some (c.toNat - 48)
  else if decide (97 ≤ c.toNat) && decide (c.toNat ≤ 102) then some (c.toNat - 87)
  else if decide (65 ≤ c.toNat) && decide (c.toNat ≤ 70) then some (c.toNat - 55)
  else none

/-- The serde_json string escaping of one character: quote and backslash escaped,
the five short control escapes, `\u00XX` for other control characters, and
every other scalar emitted verbatim. -/
def escapeChar (c : Char) : List Char :=
  if c = '"' then ['\\', '"']
  else if c = '\\' then ['\\', '\\']
  else if c.toNat = 8 then ['\\', 'b']
  else if c.toNat = 9 then ['\\', 't']
  else if c.toNat = 10 then ['\\', 'n']
  else if c.toNat = 12 then ['\\', 'f']
  else if c.toNat = 13 then ['\\', 'r']
  else if c.toNat < 32 then
    ['\\', 'u', '0', '0', hexDigitChar (c.toNat / 16), hexDigitChar (c.toNat % 16)]
  else [c]

/-- The serde_json escaping of a whole string body. -/
def escapeString : List Char → List Char
  | [] => []
  | c :: t => escapeChar c ++ escapeString t

/-- Decimal digit string of `n` (most significant first), fuel-indexed so the
definition is structural; `encodeNat` supplies sufficient fuel. -/
def natCharsCore : Nat → Nat → List Char
  | 0, _ => []
  | fuel + 1, n =>
    if n < 10 then [digitChar n]
    else natCharsCore fuel (n / 10) ++ [digitChar (n % 10)]

/-- The serde_json rendering of an unsigned integer. -/
def encodeNat (n : Nat) : List Char := natCharsCore (n + 1) n

/-- Structure `Announcement` from `multicast_service.rs`: name plus announced service
port (a `u16`, modelled as `Nat`). -/
structure Announcement where
  name : String
  port : Nat
  deriving DecidableEq

/-- The opening of the compact serde_json object encoding of `Announcement`,
up to and including the opening quote of the name value. -/
def nameKey : List Char := [openBrace, '"', 'n', 'a', 'm', 'e', '"', ':', '"']

/-- The separator between the name value and the port value in the compact
serde_json encodings used by this crate. -/
def portKey : List Char := [',', '"', 'p', 'o', 'r', 't', '"', ':']

/-- Model of `serde_json::to_vec(&Announcement)`: the compact canonical encoding used by
`run_announcer` (fields in declaration order, no whitespace). -/
def to_vec (a : Announcement) : List Char :=
  nameKey ++ escapeString a.name.data ++ ['"'] ++ portKey ++ encodeNat a.port ++ [closeBrace]

/-- Match an exact token at the head of the input, returning the remainder. -/
def dropTok : List Char → List Char → Option (List Char)
  | [], s => some s
  | _ :: _, [] => none
  | c :: t, d :: s => if c = d then dropTok t s else none

/-- JSON string body parser (after the opening quote): handles the backslash
escapes, rejects raw control characters and lone-surrogate `\u` escapes, and
consumes the closing quote, as serde_json does. -/
def parseStringBody : List Char → Option (List Char × List Char)
  | [] => none
  | c :: t =>
    if c = '"' then some ([], t)
    else if c = '\\' then
      match t with
      | [] => none
      | e :: t2 =>
        if e = '"' then Option.map (fun pr => ('"' :: pr.1, pr.2)) (parseStringBody t2)
        else if e = '\\' then Option.map (fun pr => ('\\' :: pr.1, pr.2)) (parseStringBody t2)
        else if e = '/' then Option.map (fun pr => ('/' :: pr.1, pr.2)) (parseStringBody t2)
        else if e = 'b' then Option.map (fun pr => (Char.ofNat 8 :: pr.1, pr.2)) (parseStringBody t2)
        else if e = 'f' then Option.map (fun pr => (Char.ofNat 12 :: pr.1, pr.2)) (parseStringBody t2)
        else if e = 'n' then Option.map (fun pr => (Char.ofNat 10 :: pr.1, pr.2)) (parseStringBody t2)
        else if e = 'r' then Option.map (fun pr => (Char.ofNat 13 :: pr.1, pr.2)) (parseStringBody t2)
        else if e = 't' then Option.map (fun pr => (Char.ofNat 9 :: pr.1, pr.2)) (parseStringBody t2)
        else if e = 'u' then
          match t2 with
          | h1 :: h2 :: h3 :: h4 :: t3 =>
            match hexVal h1, hexVal h2, hexVal h3, hexVal h4 with
            | some a, some b, some c3, some d =>
              let v := ((a * 16 + b) * 16 + c3) * 16 + d
              if Nat.isValidChar v then
                Option.map (fun pr => (Char.ofNat v :: pr.1, pr.2)) (parseStringBody t3)
              else none
            | _, _, _, _ => none
          | _ => none
        else none
    else if c.toNat < 32 then none
    else Option.map (fun pr => (c :: pr.1, pr.2)) (parseStringBody t)

/-- Consume a maximal run of decimal digits, folding them onto `acc`. -/
def takeDigits : List Char → Nat → Nat × List Char
  | [], acc => (acc, [])
  | c :: t, acc =>
    if isDigitChar c then takeDigits t (acc * 10 + (c.toNat - 48)) else (acc, c :: t)

/-- JSON unsigned-number parser: requires at least one leading digit. -/
def parseNumber (s : List Char) : Option (Nat × List Char) :=
  match s with
  | [] => none
  | c :: _ => if isDigitChar c then some (takeDigits s 0) else none

/-- Model of `serde_json::from_slice::<Announcement>` on the canonical compact object
grammar this crate exchanges: `\x7b"name":<string>,"port":<u16>\x7d` with no
trailing data; the port must fit in a `u16` (serde errors otherwise). -/
def from_slice (s : List Char) : Option Announcement :=
  match dropTok nameKey s with
  | none => none
  | some s1 =>
    match parseStringBody s1 with
    | none => none
    | some (nm, s2) =>
      match dropTok portKey s2 with
      | none => none
      | some s3 =>
        match parseNumber s3 with
        | none => none
        | some (n, s4) =>
          match s4 with
          | [c] => if c = closeBrace ∧ n < 65536 then some ⟨String.mk nm, n⟩ else none
          | _ => none

/-- Rust `std::net::SocketAddr` (V4): sender IP plus ephemeral source port. -/
structure SockAddr where
  ip : Ipv4Addr
  port : Nat
  deriving DecidableEq

/-- Structure `Peer` from `multicast_service.rs`: source address, announced name,
announced port, and the `#[serde(skip)]` internal last-seen timestamp. -/
structure Peer where
  addr : SockAddr
  name : String
  port : Nat
  last_seen : Nat
  deriving DecidableEq

/-- The peer registry `HashMap<String, Peer>`, modelled as an association list
keyed by announced name. -/
abbrev Registry := List (String × Peer)

/-- Constant `PEER_TIMEOUT_SECS` from `multicast_service.rs`. -/
def PEER_TIMEOUT_SECS : Nat := 2

/-- Operation `HashMap::insert` as used by `run_listener`: unconditionally replace the
binding for `n`. -/
def upsert (reg : Registry) (n : String) (p : Peer) : Registry :=
  (n, p) :: reg.filter (fun kv => kv.1 != n)

/-- The expiry sweep in `LanDiscovery::start`:
`peers.retain(|_, peer| peer.last_seen.elapsed() < timeout)`. -/
def evict_stale (reg : Registry) (now timeout : Nat) : Registry :=
  reg.filter (fun kv => decide (now - kv.2.last_seen < timeout))

/-- Operation `HashMap::get`: the binding for key `n`, if present. -/
def regLookup : Registry → String → Option Peer
  | [], _ => none
  | (k, v) :: t, n => if k = n then some v else regLookup t n

/-- Method `LanDiscovery::get_peers`: snapshot of all current peer records. -/
def get_peers (reg : Registry) : List Peer := reg.map Prod.snd

/-- Dotted-decimal rendering of an IPv4 address (its `Display`). -/
def ipChars (a : Ipv4Addr) : List Char :=
  encodeNat a.o0 ++ ['.'] ++ encodeNat a.o1 ++ ['.'] ++ encodeNat a.o2 ++ ['.'] ++ encodeNat a.o3

/-- A `SocketAddr` in its `Display`/serde form: "ip:port". -/
def sockAddrChars (sa : SockAddr) : List Char := ipChars sa.ip ++ [':'] ++ encodeNat sa.port

/-- The opening of the compact serde_json object encoding of `Peer`, up to and
including the opening quote of the addr value. -/
def addrKey : List Char := [openBrace, '"', 'a', 'd', 'd', 'r', '"', ':', '"']

/-- The separator before the name field in the `Peer` encoding. -/
def nameKey2 : List Char := [',', '"', 'n', 'a', 'm', 'e', '"', ':', '"']

/-- The serde_json record for one peer: exactly the addr, name and port fields
(`last_seen` carries `#[serde(skip)]`). -/
def serializeOutward (addr : SockAddr) (nm : String) (port : Nat) : List Char :=
  addrKey ++ escapeString (sockAddrChars addr) ++ ['"'] ++ nameKey2 ++
    escapeString nm.data ++ ['"'] ++ portKey ++ encodeNat port ++ [closeBrace]

/-- The serde_json serialization of one `Peer` value. -/
def serializePeer (p : Peer) : List Char := serializeOutward p.addr p.name p.port

/-- Comma-join a list of already-serialized JSON values. -/
def commaSep : List (List Char) → List Char
  | [] => []
  | [x] => x
  | x :: y :: t => x ++ [','] ++ commaSep (y :: t)

/-- The serde_json serialization of a `Vec<Peer>`: a JSON array of peer records. -/
def serializePeers (l : List Peer) : List Char :=
  ['['] ++ commaSep (l.map serializePeer) ++ [']']

/-- Model of `serde_json::to_vec(&Vec<Peer>)` as a `Result`: for this type serialization
always succeeds; `Result` is modelled as `Except`. -/
def serializePeersRes (l : List Peer) : Except Unit (List Char) := Except.ok (serializePeers l)

/-- The `unwrap_or_else(|_| Vec::new())` combinator in `peers_json`: the
serialized bytes on success, the empty buffer on serialization failure. -/
def peers_json_result (r : Except Unit (List Char)) : List Char :=
  match r with
  | Except.ok v => v
  | Except.error _ => []

/-- Method `LanDiscovery::peers_json`: serialize the snapshot, empty buffer on error. -/
def peers_json (reg : Registry) : List Char :=
  peers_json_result (serializePeersRes (get_peers reg))

/-- The registry-relevant state of a `LanDiscovery` engine: the peer map plus
the shared mutable announcement payload (name, port). -/
structure DiscState where
  peers : Registry
  localName : String
  localPort : Nat
  deriving DecidableEq

/-- The events that mutate that state: a datagram receipt handled by
`run_listener`, an expiry-sweep tick, and a write to the shared
`announce_payload`. -/
inductive DiscEvent where
  | recv (data : List Char) (src : SockAddr) (now : Nat)
  | evictTick (now : Nat)
  | setPayload (nm : String) (port : Nat)
  deriving DecidableEq

/-- Whether an event is a write to the shared announcement payload. -/
def DiscEvent.isSetPayload : DiscEvent → Bool
  | DiscEvent.setPayload _ _ => true
  | _ => false

/-- One event step: the `run_listener` receive body (deserialize, self-filter
against the current payload name, upsert), the expiry sweep, or a payload
update. -/
def step (s : DiscState) (e : DiscEvent) : DiscState :=
  match e with
  | DiscEvent.recv data src now =>
    match from_slice data with
    | none => s
    | some msg =>
      if msg.name = s.localName then s
      else { s with peers := upsert s.peers msg.name ⟨src, msg.name, msg.port, now⟩ }
  | DiscEvent.evictTick now =>
    { s with peers := evict_stale s.peers now PEER_TIMEOUT_SECS }
  | DiscEvent.setPayload nm port =>
    { s with localName := nm, localPort := port }

/-- Run a sequence of events from a state. -/
def run (s : DiscState) (evs : List DiscEvent) : DiscState := evs.foldl step s

/-- The FFI name argument of `discovery_new`: a null `*const c_char`, a
non-null pointer to non-UTF-8 bytes, or a valid UTF-8 string. -/
inductive CNameArg where
  | null
  | invalid
  | valid (s : String)

/-- Observable side effects of the boundary adapter operations. -/
inductive FfiEffect where
  | constructEngine
  | startEngine
  | freeEngine
  deriving DecidableEq

/-- Function `discovery_new` from `lib.rs`: null or non-UTF-8 name is rejected before
anything is constructed; otherwise the engine is built (outcome depends on the
socket environment, passed in as `constructResult`) and, on success, started. -/
def discovery_new (nm : CNameArg) (constructResult : Option DiscState) :
    Option DiscState × List FfiEffect :=
  match nm with
  | CNameArg.null => (none, [])
  | CNameArg.invalid => (none, [])
  | CNameArg.valid _ =>
    match constructResult with
    | none => (none, [FfiEffect.constructEngine])
    | some d => (some d, [FfiEffect.constructEngine, FfiEffect.startEngine])

/-- Function `discovery_free` from `lib.rs`: a null handle is a no-op. -/
def discovery_free (handle : Option DiscState) : List FfiEffect :=
  match handle with
  | none => []
  | some _ => [FfiEffect.freeEngine]

/-- Function `discovery_get_peers_json` from `lib.rs`: any null argument yields -1 with
no writes to the output slots; otherwise the serialized snapshot and its
length are written and 0 is returned. -/
def discovery_get_peers_json (handle : Option DiscState) (outPtrNull outLenNull : Bool) :
    Int × Option (List Char × Nat) :=
  match handle with
  | none => (-1, none)
  | some d =>
    if outPtrNull || outLenNull then (-1, none)
    else
      let bytes := peers_json d.peers
      (0, some (bytes, bytes.length))

/-- The outward-facing fields of a peer record: source address, announced
name, announced port — everything except the internal timestamp. -/
def peerOutward (p : Peer) : SockAddr × String × Nat := (p.addr, p.name, p.port)

/-- The self-filter invariant: the registry has no entry keyed by the current
local announcement name. -/
def SelfFree (s : DiscState) : Prop := regLookup s.peers s.localName = none

/-- The highest `score_addr` value among the IPv4 candidates of a list
(-1 when there is none). -/
def maxScore : List IpAddr → Int
  | [] => -1
  | IpAddr.v6 :: t => maxScore t
  | IpAddr.v4 a :: t => max (score_addr a) (maxScore t)

/-- The first IPv4 candidate of the list whose score is exactly `s`. -/
def firstWithScore : List IpAddr → Int → Option Ipv4Addr
  | [], _ => none
  | IpAddr.v6 :: t, s => firstWithScore t s
  | IpAddr.v4 a :: t, s => if score_addr a = s then some a else firstWithScore t s

/-- A usable candidate in the spec's sense: neither loopback, link-local,
multicast nor unspecified. -/
def usable (a : Ipv4Addr) : Prop :=
  a.is_loopback = false ∧ a.is_link_local = false ∧
    a.is_multicast = false ∧ a.is_unspecified = false

instance (a : Ipv4Addr) : Decidable (usable a) := by
  unfold usable
  infer_instance

/-- Membership in 192.168.0.0/16. -/
def in192 (a : Ipv4Addr) : Prop := a.o0 = 192 ∧ a.o1 = 168

instance (a : Ipv4Addr) : Decidable (in192 a) := by
  unfold in192
  infer_instance

/-- Membership in 172.16.0.0/12. -/
def in172 (a : Ipv4Addr) : Prop := a.o0 = 172 ∧ 16 ≤ a.o1 ∧ a.o1 ≤ 31

instance (a : Ipv4Addr) : Decidable (in172 a) := by
  unfold in172
  infer_instance

/-- Membership in 10.0.0.0/8. -/
def in10 (a : Ipv4Addr) : Prop := a.o0 = 10

instance (a : Ipv4Addr) : Decidable (in10 a) := by
  unfold in10
  infer_instance

/-- A key absent from a registry stays absent after any filter pass. -/
theorem regLookup_filter_none (reg : Registry) (f : String × Peer → Bool) (m : String)
    (h : regLookup reg m = none) : regLookup (reg.filter f) m = none := by
  induction reg with
  | nil => exact h
  | cons kv t ih =>
    obtain ⟨k, v⟩ := kv
    by_cases hk : k = m
    · subst hk
      simp [regLookup] at h
    · have ht : regLookup t m = none := by
        simpa [regLookup, hk] using h
      by_cases hf : f (k, v)
      · simp [List.filter_cons, hf, regLookup, hk, ih ht]
      · simp [List.filter_cons, hf, ih ht]

/-- Every key of a registry whose entries all have keys different from `n`
looks up to nothing at `n`. -/
theorem regLookup_eq_none_of_keys_ne (l : Registry) (n : String)
    (h : ∀ kv ∈ l, kv.1 ≠ n) : regLookup l n = none := by
  induction l with
  | nil => rfl
  | cons kv t ih =>
    obtain ⟨k, v⟩ := kv
    have hk : k ≠ n := h (k, v) (List.mem_cons_self _ _)
    simp [regLookup, hk]
    exact ih (fun kv hm => h kv (List.mem_cons_of_mem _ hm))

/-- Removing the bindings of key `n` does not change lookups at other keys. -/
theorem regLookup_filter_other (reg : Registry) (n m : String) (h : m ≠ n) :
    regLookup (reg.filter (fun kv => kv.1 != n)) m = regLookup reg m := by
  induction reg with
  | nil => rfl
  | cons kv t ih =>
    obtain ⟨k, v⟩ := kv
    by_cases hk : k = n
    · subst hk
      have hkm : k ≠ m := fun e => h e.symm
      have hb : (k != k) = false := by simp
      simp [List.filter_cons, hb, regLookup, hkm, ih]
    · have hb : (k != n) = true := bne_iff_ne.mpr hk
      simp [List.filter_cons, hb, regLookup, ih]

/-- After an upsert at key `n`, lookups at other keys are unchanged. -/
theorem regLookup_upsert_ne (reg : Registry) (n : String) (p : Peer) (m : String)
    (h : m ≠ n) : regLookup (upsert reg n p) m = regLookup reg m := by
  have hn : n ≠ m := fun e => h e.symm
  simp [upsert, regLookup, hn]
  exact regLookup_filter_other reg n m h

/-- On a registry with no duplicate keys, a filter pass keeps exactly the
bindings satisfying the predicate. -/
theorem regLookup_filter_iff (reg : Registry) (f : String × Peer → Bool)
    (hnd : (reg.map Prod.fst).Nodup) (m : String) (q : Peer) :
    regLookup (reg.filter f) m = some q ↔ regLookup reg m = some q ∧ f (m, q) = true := by
  induction reg with
  | nil => simp [List.filter, regLookup]
  | cons kv t ih =>
    obtain ⟨k, v⟩ := kv
    have hnd' : (t.map Prod.fst).Nodup := (List.nodup_cons.mp hnd).2
    have hknot : k ∉ t.map Prod.fst := (List.nodup_cons.mp hnd).1
    by_cases hf : f (k, v)
    · by_cases hk : k = m
      · subst hk
        have hfc : List.filter f ((k, v) :: t) = (k, v) :: List.filter f t := by
          simp [List.filter_cons, hf]
        rw [hfc]
        simp only [regLookup, if_pos rfl]
        constructor
        · intro hq
          injection hq with hq
          subst hq
          exact ⟨rfl, hf⟩
        · rintro ⟨hq, _⟩
          injection hq with hq
          simp [hq]
      · simp [List.filter_cons, hf, regLookup, hk, ih hnd']
    · by_cases hk : k = m
      · subst hk
        have habs : regLookup t k = none := by
          apply regLookup_eq_none_of_keys_ne
          intro kv hm he
          exact hknot (he ▸ List.mem_map_of_mem Prod.fst hm)
        have hL : regLookup (t.filter f) k = none := regLookup_filter_none t f k habs
        have hfc : List.filter f ((k, v) :: t) = List.filter f t := by
          simp [List.filter_cons, hf]
        rw [hfc, hL]
        simp only [regLookup, if_pos rfl]
        constructor
        · intro hq
          exact absurd hq (by simp)
        · rintro ⟨hq, hfq⟩
          injection hq with hq
          rw [← hq] at hfq
          exact absurd hfq hf
      · simp [List.filter_cons, hf, regLookup, hk, ih hnd']

/-- C3: the eviction sweep removes exactly the entries whose age reaches the
timeout and keeps those strictly below it; an entry upserted and then swept
before its window elapses is still present, and after it elapses it is gone;
the staleness window constant is 2 seconds. -/
theorem evict_stale_exact_window (reg : Registry) (now timeout : Nat) (n : String) (p : Peer)
    (hnd : (reg.map Prod.fst).Nodup) :
    (∀ m q, regLookup (evict_stale reg now timeout) m = some q ↔
      regLookup reg m = some q ∧ now - q.last_seen < timeout) ∧
    (now - p.last_seen < timeout →
      regLookup (evict_stale (upsert reg n p) now timeout) n = some p) ∧
    (timeout ≤ now - p.last_seen →
      regLookup (evict_stale (upsert reg n p) now timeout) n = none) ∧
    PEER_TIMEOUT_SECS = 2 := by
  refine ⟨?_, ?_, ?_, rfl⟩
  · intro m q
    have := regLookup_filter_iff reg (fun kv => decide (now - kv.2.last_seen < timeout)) hnd m q
    simpa [evict_stale] using this
  · intro h
    simp [evict_stale, upsert, List.filter, h, regLookup]
  · intro h
    apply regLookup_eq_none_of_keys_ne
    intro kv hm
    have hm2 : kv ∈ upsert reg n p ∧ decide (now - kv.2.last_seen < timeout) = true :=
      List.mem_filter.mp hm
    rcases List.mem_cons.mp hm2.1 with he | hmem
    · exfalso
      have : now - p.last_seen < timeout := by
        have := hm2.2
        rw [he] at this
        simpa using this
      omega
    · have := (List.mem_filter.mp hmem).2
      simpa using this

/-- Concrete instance of `evict_stale_exact_window`: a peer last seen at time
10 survives a sweep at time 11 with timeout 2, and is gone at time 12. -/
theorem evict_stale_exact_window_witness :
    regLookup (evict_stale (upsert [] "N" ⟨⟨⟨1, 2, 3, 4⟩, 5⟩, "N", 7, 10⟩) 11 2) "N" =
      some ⟨⟨⟨1, 2, 3, 4⟩, 5⟩, "N", 7, 10⟩ ∧
    regLookup (evict_stale (upsert [] "N" ⟨⟨⟨1, 2, 3, 4⟩, 5⟩, "N", 7, 10⟩) 12 2) "N" = none :=
  ⟨(evict_stale_exact_window [] 11 2 "N" ⟨⟨⟨1, 2, 3, 4⟩, 5⟩, "N", 7, 10⟩ (by simp)).2.1
      (by decide),
   (evict_stale_exact_window [] 12 2 "N" ⟨⟨⟨1, 2, 3, 4⟩, 5⟩, "N", 7, 10⟩ (by simp)).2.2.1
      (by decide)⟩

/-- C6: every null input at the FFI boundary is rejected synchronously with
its sentinel and produces no side effects: null or non-UTF-8 name yields a
null handle with no engine constructed, any null argument of
`discovery_get_peers_json` yields -1 with nothing written, and freeing a null
handle is a no-op. -/
theorem boundary_null_rejection :
    (∀ cr, discovery_new CNameArg.null cr = (none, [])) ∧
    (∀ cr, discovery_new CNameArg.invalid cr = (none, [])) ∧
    (∀ pn ln, discovery_get_peers_json none pn ln = (-1, none)) ∧
    (∀ d ln, discovery_get_peers_json (some d) true ln = (-1, none)) ∧
    (∀ d pn, discovery_get_peers_json (some d) pn true = (-1, none)) ∧
    discovery_free none = [] := by
  refine ⟨fun cr => rfl, fun cr => rfl, fun pn ln => rfl, fun d ln => rfl,
    fun d pn => ?_, rfl⟩
  simp [discovery_get_peers_json]

/-- C7: the serialized-snapshot accessor returns the serialized bytes on
success and falls back to the empty buffer when serialization fails, and the
pipeline composes the serializer with that fallback. -/
theorem peers_json_failure_fallback (r : Except Unit (List Char)) (b : List Char)
    (reg : Registry) :
    (r = Except.ok b → peers_json_result r = b) ∧
    (r = Except.error () → peers_json_result r = []) ∧
    peers_json reg = serializePeers (get_peers reg) := by
  refine ⟨fun h => ?_, fun h => ?_, rfl⟩
  · subst h
    rfl
  · subst h
    rfl

/-- Concrete instance of `peers_json_failure_fallback` at both a failed and a
successful serialization result. -/
theorem peers_json_failure_fallback_witness :
    peers_json_result (Except.error ()) = [] ∧ peers_json_result (Except.ok ['x']) = ['x'] :=
  ⟨(peers_json_failure_fallback (Except.error ()) [] []).2.1 rfl,
   (peers_json_failure_fallback (Except.ok ['x']) ['x'] []).1 rfl⟩

/-- C8: the outward serialization of a peer snapshot is a function of the
address, name and port of each record only — two snapshots agreeing on those
fields serialize identically — and each record is serialized from exactly
those three fields, never the last-seen timestamp. -/
theorem peer_serialization_outward_only (l1 l2 : List Peer) (p : Peer) (t : Nat)
    (h : l1.map peerOutward = l2.map peerOutward) :
    serializePeers l1 = serializePeers l2 ∧
    serializePeer p = serializeOutward p.addr p.name p.port ∧
    serializePeer { p with last_seen := t } = serializePeer p := by
  refine ⟨?_, rfl, rfl⟩
  have h1 : l1.map serializePeer = l2.map serializePeer := by
    have e1 : l1.map serializePeer =
        (l1.map peerOutward).map (fun q => serializeOutward q.1 q.2.1 q.2.2) := by
      rw [List.map_map]
      rfl
    have e2 : l2.map serializePeer =
        (l2.map peerOutward).map (fun q => serializeOutward q.1 q.2.1 q.2.2) := by
      rw [List.map_map]
      rfl
    rw [e1, e2, h]
  rw [serializePeers, serializePeers, h1]

/-- Concrete instance of `peer_serialization_outward_only`: two snapshots that
differ only in last-seen timestamps serialize to the same bytes. -/
theorem peer_serialization_outward_only_witness :
    serializePeers [⟨⟨⟨1, 2, 3, 4⟩, 5⟩, "N", 7, 5⟩] =
      serializePeers [⟨⟨⟨1, 2, 3, 4⟩, 5⟩, "N", 7, 9⟩] :=
  (peer_serialization_outward_only [⟨⟨⟨1, 2, 3, 4⟩, 5⟩, "N", 7, 5⟩]
    [⟨⟨⟨1, 2, 3, 4⟩, 5⟩, "N", 7, 9⟩] ⟨⟨⟨1, 2, 3, 4⟩, 5⟩, "N", 7, 5⟩ 0 (by decide)).1

/-- C10: the successful serialization of an empty peer set is the two-character
array text, not the empty buffer, and every successful serialization result is
non-empty — so an empty buffer can only signal serialization failure. -/
theorem empty_peers_serialization (l : List Peer) (b : List Char)
    (h : serializePeersRes l = Except.ok b) :
    peers_json ([] : Registry) = ['[', ']'] ∧
    (peers_json ([] : Registry)).length = 2 ∧ b ≠ [] := by
  refine ⟨rfl, rfl, ?_⟩
  have hb : b = serializePeers l := by
    have h2 := h
    simp [serializePeersRes] at h2
    exact h2.symm
  subst hb
  simp [serializePeers]

/-- Concrete instance of `empty_peers_serialization` at the empty snapshot. -/
theorem empty_peers_serialization_witness :
    serializePeersRes [] = Except.ok ['[', ']'] ∧ peers_json ([] : Registry) = ['[', ']'] :=
  ⟨rfl, (empty_peers_serialization [] ['[', ']'] rfl).1⟩

/-- A receive or eviction step preserves the self-filter invariant (the local
name is unchanged by these steps, and a receive only upserts a key that the
self-filter found different from the local name). -/
theorem step_preserves_selfFree (s : DiscState) (e : DiscEvent)
    (h : SelfFree s) (he : e.isSetPayload = false) : SelfFree (step s e) := by
  cases e with
  | recv data src now =>
    unfold SelfFree
    simp only [step]
    cases hp : from_slice data with
    | none => exact h
    | some msg =>
      by_cases hname : msg.name = s.localName
      · simp only [if_pos hname]
        exact h
      · simp only [if_neg hname]
        have hne : s.localName ≠ msg.name := fun e2 => hname e2.symm
        rw [regLookup_upsert_ne s.peers msg.name _ s.localName hne]
        exact h
  | evictTick now =>
    unfold SelfFree
    simp only [step]
    exact regLookup_filter_none s.peers _ s.localName h
  | setPayload nm port =>
    simp [DiscEvent.isSetPayload] at he

/-- The invariant is preserved by any run of receive/eviction events. -/
theorem run_preserves_selfFree (evs : List DiscEvent) :
    ∀ s : DiscState, SelfFree s → (∀ e ∈ evs, e.isSetPayload = false) →
      SelfFree (run s evs) := by
  induction evs with
  | nil => exact fun s h _ => h
  | cons e t ih =>
    intro s h hev
    have h1 : SelfFree (step s e) :=
      step_preserves_selfFree s e h (hev e (List.mem_cons_self _ _))
    exact ih (step s e) h1 (fun e2 hm => hev e2 (List.mem_cons_of_mem _ hm))

/-- C1 (amended): an announcement whose name equals the current local name is
discarded before any registry write, and along any run of receive and
eviction events (no update of the local announcement name) the registry never
contains an entry keyed by the local name. -/
theorem listener_self_filter (s : DiscState) (evs : List DiscEvent) (data : List Char)
    (src : SockAddr) (now : Nat) (msg : Announcement)
    (h0 : regLookup s.peers s.localName = none)
    (hev : ∀ e ∈ evs, e.isSetPayload = false)
    (hparse : from_slice data = some msg) (hself : msg.name = s.localName) :
    step s (DiscEvent.recv data src now) = s ∧
    regLookup (run s evs).peers (run s evs).localName = none := by
  constructor
  · simp only [step]
    rw [hparse]
    simp [hself]
  · exact run_preserves_selfFree evs s h0 hev

/-- Concrete instance of `listener_self_filter`: the engine named "Alice"
drops its own announcement, and after receiving "Bob" and running a sweep the
registry still has no entry for the local name. -/
theorem listener_self_filter_witness :
    step ⟨[], "Alice", 8080⟩
        (DiscEvent.recv (to_vec ⟨"Alice", 9⟩) ⟨⟨1, 2, 3, 4⟩, 5⟩ 0) = ⟨[], "Alice", 8080⟩ ∧
    regLookup
        (run ⟨[], "Alice", 8080⟩
          [DiscEvent.recv (to_vec ⟨"Bob", 1⟩) ⟨⟨1, 2, 3, 4⟩, 5⟩ 0,
           DiscEvent.evictTick 1]).peers
        (run ⟨[], "Alice", 8080⟩
          [DiscEvent.recv (to_vec ⟨"Bob", 1⟩) ⟨⟨1, 2, 3, 4⟩, 5⟩ 0,
           DiscEvent.evictTick 1]).localName = none :=
  listener_self_filter ⟨[], "Alice", 8080⟩
    [DiscEvent.recv (to_vec ⟨"Bob", 1⟩) ⟨⟨1, 2, 3, 4⟩, 5⟩ 0, DiscEvent.evictTick 1]
    (to_vec ⟨"Alice", 9⟩) ⟨⟨1, 2, 3, 4⟩, 5⟩ 0 ⟨"Alice", 9⟩
    rfl (by decide) (by decide) rfl

/-- C1 counterexample: receive "Bob" while named "Alice", then update the
mutable announcement payload name to "Bob"; the registry now contains an
entry whose key equals the current local announcement name, so the claimed
invariant does not hold across payload updates. -/
theorem listener_self_filter_counterexample :
    (run ⟨[], "Alice", 8080⟩
      [DiscEvent.recv (to_vec ⟨"Bob", 1⟩) ⟨⟨1, 2, 3, 4⟩, 5⟩ 0,
       DiscEvent.setPayload "Bob" 1]).localName = "Bob" ∧
    regLookup
      (run ⟨[], "Alice", 8080⟩
        [DiscEvent.recv (to_vec ⟨"Bob", 1⟩) ⟨⟨1, 2, 3, 4⟩, 5⟩ 0,
         DiscEvent.setPayload "Bob" 1]).peers
      (run ⟨[], "Alice", 8080⟩
        [DiscEvent.recv (to_vec ⟨"Bob", 1⟩) ⟨⟨1, 2, 3, 4⟩, 5⟩ 0,
         DiscEvent.setPayload "Bob" 1]).localName ≠ none := by
  constructor
  · decide
  · decide

/-- Function `score_addr` only takes the five values -1, 10, 80, 90, 100. -/
theorem score_addr_cases (a : Ipv4Addr) :
    score_addr a = -1 ∨ score_addr a = 10 ∨ score_addr a = 80 ∨
      score_addr a = 90 ∨ score_addr a = 100 := by
  unfold score_addr
  split_ifs <;> simp

/-- Function `score_addr` never exceeds 100. -/
theorem score_addr_le_100 (a : Ipv4Addr) : score_addr a ≤ 100 := by
  unfold score_addr
  split_ifs <;> omega

/-- Function `score_addr` is at least -1. -/
theorem neg_one_le_score_addr (a : Ipv4Addr) : -1 ≤ score_addr a := by
  unfold score_addr
  split_ifs <;> omega

/-- A candidate is usable exactly when its score is non-negative. -/
theorem usable_iff (a : Ipv4Addr) : usable a ↔ 0 ≤ score_addr a := by
  unfold usable score_addr
  by_cases h : (a.is_loopback || a.is_link_local || a.is_multicast || a.is_unspecified) = true
  · rw [if_pos h]
    simp only [Bool.or_eq_true] at h
    constructor
    · rintro ⟨h1, h2, h3, h4⟩
      rcases h with ((hh | hh) | hh) | hh <;> simp_all
    · intro h0
      exact absurd h0 (by norm_num)
  · rw [if_neg h]
    simp only [Bool.or_eq_true, not_or, Bool.not_eq_true] at h
    obtain ⟨⟨⟨h1, h2⟩, h3⟩, h4⟩ := h
    constructor
    · intro _
      split_ifs <;> omega
    · intro _
      exact ⟨h1, h2, h3, h4⟩

/-- A loopback or link-local candidate scores -1. -/
theorem score_addr_eq_neg_one_of_local (a : Ipv4Addr)
    (h : a.is_loopback = true ∨ a.is_link_local = true) : score_addr a = -1 := by
  rcases h with h | h <;> simp [score_addr, h]

/-- Score 100 characterizes the 192.168.0.0/16 range. -/
theorem score_eq_100_iff (a : Ipv4Addr) : score_addr a = 100 ↔ in192 a := by
  unfold score_addr in192
  split_ifs with h h1 h2 h3
  · constructor
    · intro hh
      exact absurd hh (by norm_num)
    · rintro ⟨e0, e1⟩
      exfalso
      simp [Ipv4Addr.is_loopback, Ipv4Addr.is_link_local, Ipv4Addr.is_multicast,
        Ipv4Addr.is_unspecified, e0] at h
  · constructor
    · intro hh
      exact absurd hh (by norm_num)
    · rintro ⟨e0, e1⟩
      simp [e0] at h1
  · constructor
    · intro hh
      exact absurd hh (by norm_num)
    · rintro ⟨e0, e1⟩
      simp [e0] at h2
  · simp only [Bool.and_eq_true, beq_iff_eq] at h3
    simp [h3.1, h3.2]
  · constructor
    · intro hh
      exact absurd hh (by norm_num)
    · rintro ⟨e0, e1⟩
      simp [e0, e1] at h3

/-- Score 90 characterizes the 172.16.0.0/12 range. -/
theorem score_eq_90_iff (a : Ipv4Addr) : score_addr a = 90 ↔ in172 a := by
  unfold score_addr in172
  split_ifs with h h1 h2 h3
  · constructor
    · intro hh
      exact absurd hh (by norm_num)
    · rintro ⟨e0, e1, e2⟩
      exfalso
      simp [Ipv4Addr.is_loopback, Ipv4Addr.is_link_local, Ipv4Addr.is_multicast,
        Ipv4Addr.is_unspecified, e0] at h
  · constructor
    · intro hh
      exact absurd hh (by norm_num)
    · rintro ⟨e0, e1, e2⟩
      simp [e0] at h1
  · simp only [Bool.and_eq_true, beq_iff_eq, decide_eq_true_eq] at h2
    simp [h2.1.1, h2.1.2, h2.2]
  · constructor
    · intro hh
      exact absurd hh (by norm_num)
    · rintro ⟨e0, e1, e2⟩
      simp [e0, e1, e2] at h2
  · constructor
    · intro hh
      exact absurd hh (by norm_num)
    · rintro ⟨e0, e1, e2⟩
      simp [e0, e1, e2] at h2

/-- Score 80 characterizes the 10.0.0.0/8 range. -/
theorem score_eq_80_iff (a : Ipv4Addr) : score_addr a = 80 ↔ in10 a := by
  unfold score_addr in10
  split_ifs with h h1 h2 h3
  · constructor
    · intro hh
      exact absurd hh (by norm_num)
    · intro e0
      exfalso
      simp [Ipv4Addr.is_loopback, Ipv4Addr.is_link_local, Ipv4Addr.is_multicast,
        Ipv4Addr.is_unspecified, e0] at h
  · simp only [beq_iff_eq] at h1
    simp [h1]
  · constructor
    · intro hh
      exact absurd hh (by norm_num)
    · intro e0
      simp [e0] at h1
  · constructor
    · intro hh
      exact absurd hh (by norm_num)
    · intro e0
      simp [e0] at h1
  · constructor
    · intro hh
      exact absurd hh (by norm_num)
    · intro e0
      simp [e0] at h1

/-- The score of any IPv4 member bounds `maxScore` from below. -/
theorem le_maxScore_of_mem (l : List IpAddr) (a : Ipv4Addr) (hm : IpAddr.v4 a ∈ l) :
    score_addr a ≤ maxScore l := by
  induction l with
  | nil => simp at hm
  | cons hd t ih =>
    cases hd with
    | v6 =>
      have ht : IpAddr.v4 a ∈ t := by
        rcases List.mem_cons.mp hm with h | h
        · exact absurd h (by simp)
        · exact h
      simpa [maxScore] using ih ht
    | v4 c =>
      rcases List.mem_cons.mp hm with h | h
      · injection h with h2
        subst h2
        simp only [maxScore]
        exact le_max_left _ _
      · simp only [maxScore]
        exact le_trans (ih h) (le_max_right _ _)

/-- Value `maxScore` never exceeds 100. -/
theorem maxScore_le_100 (l : List IpAddr) : maxScore l ≤ 100 := by
  induction l with
  | nil => simp [maxScore]
  | cons hd t ih =>
    cases hd with
    | v6 => simpa [maxScore] using ih
    | v4 c =>
      simp only [maxScore]
      exact max_le (score_addr_le_100 c) ih

/-- Value `maxScore` is at least -1. -/
theorem neg_one_le_maxScore (l : List IpAddr) : -1 ≤ maxScore l := by
  induction l with
  | nil => simp [maxScore]
  | cons hd t ih =>
    cases hd with
    | v6 => simpa [maxScore] using ih
    | v4 c =>
      simp only [maxScore]
      exact le_max_of_le_right ih

/-- When every IPv4 candidate scores -1, so does `maxScore`. -/
theorem maxScore_eq_neg_one (l : List IpAddr)
    (h : ∀ a, IpAddr.v4 a ∈ l → score_addr a = -1) : maxScore l = -1 := by
  induction l with
  | nil => rfl
  | cons hd t ih =>
    have ht : maxScore t = -1 :=
      ih (fun a hm => h a (List.mem_cons_of_mem _ hm))
    cases hd with
    | v6 => simpa [maxScore] using ht
    | v4 c =>
      have hc : score_addr c = -1 := h c (List.mem_cons_self _ _)
      simp [maxScore, hc, ht]

/-- What `firstWithScore` returns really has the requested score and is a
member of the list. -/
theorem firstWithScore_spec (l : List IpAddr) (s : Int) (b : Ipv4Addr)
    (h : firstWithScore l s = some b) : score_addr b = s ∧ IpAddr.v4 b ∈ l := by
  induction l with
  | nil => simp [firstWithScore] at h
  | cons hd t ih =>
    cases hd with
    | v6 =>
      have := ih (by simpa [firstWithScore] using h)
      exact ⟨this.1, List.mem_cons_of_mem _ this.2⟩
    | v4 c =>
      by_cases hc : score_addr c = s
      · simp only [firstWithScore, if_pos hc] at h
        injection h with h2
        subst h2
        exact ⟨hc, List.mem_cons_self _ _⟩
      · simp only [firstWithScore, if_neg hc] at h
        have := ih h
        exact ⟨this.1, List.mem_cons_of_mem _ this.2⟩

/-- When some candidate scores above -1, the maximum score is attained by a
first candidate. -/
theorem firstWithScore_isSome (l : List IpAddr) (h : -1 < maxScore l) :
    ∃ b, firstWithScore l (maxScore l) = some b := by
  induction l with
  | nil =>
    simp only [maxScore] at h
    omega
  | cons hd t ih =>
    cases hd with
    | v6 =>
      simp only [maxScore] at h ⊢
      simpa [firstWithScore] using ih h
    | v4 c =>
      by_cases he : score_addr c = max (score_addr c) (maxScore t)
      · refine ⟨c, ?_⟩
        simp only [firstWithScore, maxScore]
        rw [if_pos he]
      · have hM : max (score_addr c) (maxScore t) = maxScore t := by
          rcases max_choice (score_addr c) (maxScore t) with hc | hc
          · exact absurd hc.symm he
          · exact hc
        have hM2 : -1 < maxScore t := by
          simp only [maxScore] at h
          omega
        obtain ⟨b, hb⟩ := ih hM2
        refine ⟨b, ?_⟩
        have hne : score_addr c ≠ maxScore t := fun hc => he (by rw [hM, hc])
        simp only [firstWithScore, maxScore, hM, if_neg hne]
        exact hb

/-- Characterization of the selection loop: starting from an accumulator below
every attainable break point, it returns the first candidate attaining the
maximum score when that beats the accumulator, the accumulator value
otherwise. -/
theorem selectLoop_eq (l : List IpAddr) :
    ∀ (b : Option Ipv4Addr) (bs : Int), -1 ≤ bs → bs < 100 →
      selectLoop l b bs = if bs < maxScore l then firstWithScore l (maxScore l) else b := by
  induction l with
  | nil =>
    intro b bs h1 h2
    simp only [selectLoop, maxScore]
    rw [if_neg (by omega)]
  | cons hd t ih =>
    intro b bs h1 h2
    cases hd with
    | v6 =>
      simp only [selectLoop, maxScore, firstWithScore]
      exact ih b bs h1 h2
    | v4 a =>
      simp only [selectLoop, maxScore, firstWithScore]
      by_cases hneg : score_addr a < 0
      · rw [if_pos hneg]
        have hsc : score_addr a = -1 := by
          rcases score_addr_cases a with h | h | h | h | h <;> omega
        have hM : max (score_addr a) (maxScore t) = maxScore t :=
          max_eq_right (hsc ▸ neg_one_le_maxScore t)
        rw [hM, ih b bs h1 h2]
        by_cases hbM : bs < maxScore t
        · rw [if_pos hbM, if_pos hbM, if_neg (by omega : ¬ score_addr a = maxScore t)]
        · rw [if_neg hbM, if_neg hbM]
      · rw [if_neg hneg]
        by_cases hup : bs < score_addr a
        · rw [if_pos hup]
          by_cases h100 : 100 ≤ score_addr a
          · rw [if_pos h100]
            have hsc : score_addr a = 100 := le_antisymm (score_addr_le_100 a) h100
            have hM : max (score_addr a) (maxScore t) = score_addr a := by
              rw [hsc]
              exact max_eq_left (maxScore_le_100 t)
            rw [hM, if_pos (by omega : bs < score_addr a), if_pos rfl]
          · rw [if_neg h100]
            rw [ih (some a) (score_addr a) (by omega) (by omega)]
            by_cases hscM : score_addr a < maxScore t
            · rw [if_pos hscM]
              have hM : max (score_addr a) (maxScore t) = maxScore t :=
                max_eq_right (le_of_lt hscM)
              rw [hM, if_pos (by omega : bs < maxScore t),
                if_neg (by omega : ¬ score_addr a = maxScore t)]
            · rw [if_neg hscM]
              have hM : max (score_addr a) (maxScore t) = score_addr a :=
                max_eq_left (le_of_not_lt hscM)
              rw [hM, if_pos hup, if_pos rfl]
        · rw [if_neg hup, if_neg (by omega : ¬ (100 : Int) ≤ bs)]
          rw [ih b bs h1 h2]
          have hscbs : score_addr a ≤ bs := le_of_not_lt hup
          by_cases hbM : bs < maxScore t
          · have hM : max (score_addr a) (maxScore t) = maxScore t :=
              max_eq_right (by omega)
            rw [hM, if_pos hbM, if_pos hbM,
              if_neg (by omega : ¬ score_addr a = maxScore t)]
          · have hnb : ¬ bs < max (score_addr a) (maxScore t) := by
              rcases max_choice (score_addr a) (maxScore t) with hc | hc <;> rw [hc] <;> omega
            rw [if_neg hbM, if_neg hnb]

/-- When some candidate beats -1, `get_local_ipv4` returns the first candidate
attaining the maximum score. -/
theorem get_local_ipv4_achieves_max (l : List IpAddr) (h : -1 < maxScore l) :
    ∃ b, get_local_ipv4 l = b ∧ score_addr b = maxScore l ∧ IpAddr.v4 b ∈ l := by
  obtain ⟨b, hb⟩ := firstWithScore_isSome l h
  have hspec := firstWithScore_spec l (maxScore l) b hb
  refine ⟨b, ?_, hspec.1, hspec.2⟩
  unfold get_local_ipv4
  rw [selectLoop_eq l none (-1) (le_refl _) (by norm_num), if_pos h, hb]

/-- A list whose IPv4 candidates are all loopback or link-local is rejected by
the fallback loop as well. -/
theorem fallbackLoop_none (l : List IpAddr)
    (h : ∀ a, IpAddr.v4 a ∈ l → a.is_loopback = true ∨ a.is_link_local = true) :
    fallbackLoop l = none := by
  induction l with
  | nil => rfl
  | cons hd t ih =>
    have ht : fallbackLoop t = none :=
      ih (fun a hm => h a (List.mem_cons_of_mem _ hm))
    cases hd with
    | v6 => simpa [fallbackLoop] using ht
    | v4 c =>
      rcases h c (List.mem_cons_self _ _) with hc | hc <;>
        simp [fallbackLoop, hc, ht]

/-- C2 (amended): when at least one usable candidate exists the selector
returns a usable address; when every IPv4 candidate is loopback or link-local
(or none exists) it returns 127.0.0.1. (A list whose only IPv4 candidates are
multicast or unspecified is handled by the fallback loop, which returns such
an address rather than loopback — see the counterexample.) -/
theorem interface_selector_usable_fallback (l : List IpAddr) :
    ((∃ a, IpAddr.v4 a ∈ l ∧ usable a) → usable (get_local_ipv4 l)) ∧
    ((∀ a, IpAddr.v4 a ∈ l → a.is_loopback = true ∨ a.is_link_local = true) →
      get_local_ipv4 l = LOCALHOST) := by
  constructor
  · rintro ⟨a, hm, hu⟩
    have hsc : 0 ≤ score_addr a := (usable_iff a).mp hu
    have hle : score_addr a ≤ maxScore l := le_maxScore_of_mem l a hm
    obtain ⟨b, hgb, hscb, _⟩ := get_local_ipv4_achieves_max l (by omega)
    rw [hgb]
    exact (usable_iff b).mpr (by omega)
  · intro hall
    have hscores : ∀ a, IpAddr.v4 a ∈ l → score_addr a = -1 :=
      fun a hm => score_addr_eq_neg_one_of_local a (hall a hm)
    have hM : maxScore l = -1 := maxScore_eq_neg_one l hscores
    have hsel : selectLoop l none (-1) = none := by
      rw [selectLoop_eq l none (-1) (le_refl _) (by norm_num), hM, if_neg (by omega)]
    have hfb : fallbackLoop l = none := fallbackLoop_none l hall
    unfold get_local_ipv4
    rw [hsel, hfb]

/-- Concrete instance of `interface_selector_usable_fallback`: with a usable
10.0.0.5 present a usable address is chosen, and a loopback-only list falls
back to 127.0.0.1. -/
theorem interface_selector_usable_fallback_witness :
    usable (get_local_ipv4 [IpAddr.v6, IpAddr.v4 ⟨10, 0, 0, 5⟩]) ∧
    get_local_ipv4 [IpAddr.v4 ⟨127, 0, 0, 1⟩] = LOCALHOST :=
  ⟨(interface_selector_usable_fallback [IpAddr.v6, IpAddr.v4 ⟨10, 0, 0, 5⟩]).1
      ⟨⟨10, 0, 0, 5⟩, by decide, by decide⟩,
   (interface_selector_usable_fallback [IpAddr.v4 ⟨127, 0, 0, 1⟩]).2 (by
      intro a ha
      simp only [List.mem_singleton] at ha
      injection ha with h2
      subst h2
      left
      rfl)⟩

/-- C2 counterexample: a list whose only candidate is the unspecified address
0.0.0.0 — unusable by the claim's own classification — makes the selector
return 0.0.0.0 via the fallback loop, not the loopback address 127.0.0.1. -/
theorem interface_selector_unspecified_counterexample :
    Ipv4Addr.is_unspecified ⟨0, 0, 0, 0⟩ = true ∧
    score_addr ⟨0, 0, 0, 0⟩ < 0 ∧
    get_local_ipv4 [IpAddr.v4 ⟨0, 0, 0, 0⟩] = ⟨0, 0, 0, 0⟩ ∧
    get_local_ipv4 [IpAddr.v4 ⟨0, 0, 0, 0⟩] ≠ LOCALHOST := by
  refine ⟨rfl, by decide, rfl, ?_⟩
  decide

/-- C4: among the candidates the narrowest private range present wins
regardless of list order — 192.168.0.0/16 over 172.16.0.0/12 over 10.0.0.0/8,
all over public addresses — and the selection loop resolves equal scores in
favour of the first-seen candidate (it returns the first candidate attaining
the maximum score). -/
theorem private_range_preference (l : List IpAddr) :
    ((∃ a, IpAddr.v4 a ∈ l ∧ in192 a) → in192 (get_local_ipv4 l)) ∧
    ((¬ ∃ a, IpAddr.v4 a ∈ l ∧ in192 a) →
      (∃ a, IpAddr.v4 a ∈ l ∧ in172 a) → in172 (get_local_ipv4 l)) ∧
    ((¬ ∃ a, IpAddr.v4 a ∈ l ∧ in192 a) → (¬ ∃ a, IpAddr.v4 a ∈ l ∧ in172 a) →
      (∃ a, IpAddr.v4 a ∈ l ∧ in10 a) → in10 (get_local_ipv4 l)) ∧
    (-1 < maxScore l → selectLoop l none (-1) = firstWithScore l (maxScore l)) := by
  refine ⟨?_, ?_, ?_, ?_⟩
  · rintro ⟨a, hm, h192⟩
    have hsa : score_addr a = 100 := (score_eq_100_iff a).mpr h192
    have hle : (100 : Int) ≤ maxScore l := hsa ▸ le_maxScore_of_mem l a hm
    obtain ⟨b, hgb, hscb, _⟩ := get_local_ipv4_achieves_max l (by omega)
    have hb100 : score_addr b = 100 := by
      have := maxScore_le_100 l
      omega
    rw [hgb]
    exact (score_eq_100_iff b).mp hb100
  · rintro hno192 ⟨a, hm, h172⟩
    have hsa : score_addr a = 90 := (score_eq_90_iff a).mpr h172
    have hle : (90 : Int) ≤ maxScore l := hsa ▸ le_maxScore_of_mem l a hm
    obtain ⟨b, hgb, hscb, hbm⟩ := get_local_ipv4_achieves_max l (by omega)
    rw [hgb]
    rcases score_addr_cases b with h | h | h | h | h
    · omega
    · omega
    · omega
    · exact (score_eq_90_iff b).mp h
    · exact absurd ⟨b, hbm, (score_eq_100_iff b).mp h⟩ hno192
  · rintro hno192 hno172 ⟨a, hm, h10⟩
    have hsa : score_addr a = 80 := (score_eq_80_iff a).mpr h10
    have hle : (80 : Int) ≤ maxScore l := hsa ▸ le_maxScore_of_mem l a hm
    obtain ⟨b, hgb, hscb, hbm⟩ := get_local_ipv4_achieves_max l (by omega)
    rw [hgb]
    rcases score_addr_cases b with h | h | h | h | h
    · omega
    · omega
    · exact (score_eq_80_iff b).mp h
    · exact absurd ⟨b, hbm, (score_eq_90_iff b).mp h⟩ hno172
    · exact absurd ⟨b, hbm, (score_eq_100_iff b).mp h⟩ hno192
  · intro h
    rw [selectLoop_eq l none (-1) (le_refl _) (by norm_num), if_pos h]

/-- Concrete instance of `private_range_preference`: 192.168.1.7 wins even when
listed after a 10.0.0.0/8 and a 172.16.0.0/12 candidate. -/
theorem private_range_preference_witness :
    in192 (get_local_ipv4
      [IpAddr.v4 ⟨10, 0, 0, 5⟩, IpAddr.v4 ⟨172, 16, 0, 2⟩, IpAddr.v4 ⟨192, 168, 1, 7⟩]) :=
  (private_range_preference
      [IpAddr.v4 ⟨10, 0, 0, 5⟩, IpAddr.v4 ⟨172, 16, 0, 2⟩, IpAddr.v4 ⟨192, 168, 1, 7⟩]).1
    ⟨⟨192, 168, 1, 7⟩, by decide, by decide⟩

/-- Helper `dropTok` strips an exact prefix token. -/
theorem dropTok_append (t r : List Char) : dropTok t (t ++ r) = some r := by
  induction t with
  | nil => rfl
  | cons c t2 ih => simp [dropTok, ih]

/-- The decimal digit characters are digits with the expected code points. -/
theorem digitChar_facts : ∀ m, m < 10 →
    isDigitChar (digitChar m) = true ∧ (digitChar m).toNat = 48 + m := by decide

/-- Helper `hexVal` inverts `hexDigitChar` on digit values. -/
theorem hexVal_hexDigitChar : ∀ m, m < 16 → hexVal (hexDigitChar m) = some m := by decide

/-- The zero hex digit. -/
theorem hexVal_zero : hexVal '0' = some 0 := by decide

/-- Rebuilding a character from its scalar value gives it back. -/
theorem char_eq_ofNat_of_toNat (c : Char) (n : Nat) (h : c.toNat = n) : Char.ofNat n = c := by
  rw [← h, Char.ofNat_toNat]

/-- The string parser inverts serde_json escaping: parsing an escaped body
followed by the closing quote recovers the original characters and leaves the
remainder untouched. -/
theorem parseStringBody_escape (s : List Char) : ∀ r : List Char,
    parseStringBody (escapeString s ++ '"' :: r) = some (s, r) := by
  induction s with
  | nil =>
    intro r
    show parseStringBody ([] ++ '"' :: r) = _
    rw [List.nil_append, parseStringBody.eq_def]
    simp
  | cons c t ih =>
    intro r
    show parseStringBody ((escapeChar c ++ escapeString t) ++ '"' :: r) = _
    rw [List.append_assoc]
    by_cases h1 : c = '"'
    · subst h1
      simp only [escapeChar, if_pos rfl, List.cons_append, List.nil_append]
      rw [parseStringBody.eq_def]
      simp [ih]
    by_cases h2 : c = '\\'
    · subst h2
      simp only [escapeChar, if_neg h1, if_pos rfl, List.cons_append, List.nil_append]
      rw [parseStringBody.eq_def]
      simp [ih]
    by_cases h3 : c.toNat = 8
    · have hc : Char.ofNat 8 = c := char_eq_ofNat_of_toNat c 8 h3
      simp only [escapeChar, if_neg h1, if_neg h2, if_pos h3, List.cons_append, List.nil_append]
      rw [parseStringBody.eq_def]
      simp [ih]
      exact hc
    by_cases h4 : c.toNat = 9
    · have hc : Char.ofNat 9 = c := char_eq_ofNat_of_toNat c 9 h4
      simp only [escapeChar, if_neg h1, if_neg h2, if_neg h3, if_pos h4, List.cons_append,
        List.nil_append]
      rw [parseStringBody.eq_def]
      simp [ih]
      exact hc
    by_cases h5 : c.toNat = 10
    · have hc : Char.ofNat 10 = c := char_eq_ofNat_of_toNat c 10 h5
      simp only [escapeChar, if_neg h1, if_neg h2, if_neg h3, if_neg h4, if_pos h5,
        List.cons_append, List.nil_append]
      rw [parseStringBody.eq_def]
      simp [ih]
      exact hc
    by_cases h6 : c.toNat = 12
    · have hc : Char.ofNat 12 = c := char_eq_ofNat_of_toNat c 12 h6
      simp only [escapeChar, if_neg h1, if_neg h2, if_neg h3, if_neg h4, if_neg h5, if_pos h6,
        List.cons_append, List.nil_append]
      rw [parseStringBody.eq_def]
      simp [ih]
      exact hc
    by_cases h7 : c.toNat = 13
    · have hc : Char.ofNat 13 = c := char_eq_ofNat_of_toNat c 13 h7
      simp only [escapeChar, if_neg h1, if_neg h2, if_neg h3, if_neg h4, if_neg h5, if_neg h6,
        if_pos h7, List.cons_append, List.nil_append]
      rw [parseStringBody.eq_def]
      simp [ih]
      exact hc
    by_cases h8 : c.toNat < 32
    · have hd1 : c.toNat / 16 < 16 := by omega
      have hd2 : c.toNat % 16 < 16 := by omega
      have hx1 := hexVal_hexDigitChar (c.toNat / 16) hd1
      have hx2 := hexVal_hexDigitChar (c.toNat % 16) hd2
      have hv2 : c.toNat / 16 * 16 + c.toNat % 16 = c.toNat := by omega
      have hval : Nat.isValidChar c.toNat := Or.inl (by omega)
      have hc : Char.ofNat c.toNat = c := Char.ofNat_toNat c
      simp only [escapeChar, if_neg h1, if_neg h2, if_neg h3, if_neg h4, if_neg h5, if_neg h6,
        if_neg h7, if_pos h8, List.cons_append, List.nil_append]
      rw [parseStringBody.eq_def]
      simp [hexVal_zero, hx1, hx2, hv2, hval, hc, ih]
    · simp only [escapeChar, if_neg h1, if_neg h2, if_neg h3, if_neg h4, if_neg h5, if_neg h6,
        if_neg h7, if_neg h8, List.singleton_append, List.cons_append, List.nil_append]
      rw [parseStringBody.eq_def]
      simp [ih, h1, h2, h8]

/-- Helper `takeDigits` consumes a digit and folds it onto the accumulator. -/
theorem takeDigits_step (c : Char) (t : List Char) (acc : Nat) (h : isDigitChar c = true) :
    takeDigits (c :: t) acc = takeDigits t (acc * 10 + (c.toNat - 48)) := by
  simp [takeDigits, h]

/-- Helper `takeDigits` stops at the first non-digit. -/
theorem takeDigits_stop (c : Char) (t : List Char) (acc : Nat) (h : isDigitChar c = false) :
    takeDigits (c :: t) acc = (acc, c :: t) := by
  simp [takeDigits, h]

/-- Consuming the digit string of `n` folds `n` onto the accumulator and
continues with the remainder. -/
theorem takeDigits_natCharsCore :
    ∀ (fuel n acc : Nat) (rest : List Char), n < fuel →
      takeDigits (natCharsCore fuel n ++ rest) acc =
        takeDigits rest (acc * 10 ^ (natCharsCore fuel n).length + n) := by
  intro fuel
  induction fuel with
  | zero =>
    intro n acc rest h
    omega
  | succ fuel ih =>
    intro n acc rest h
    by_cases h10 : n < 10
    · have heq : natCharsCore (fuel + 1) n = [digitChar n] := by
        simp [natCharsCore, h10]
      rw [heq]
      have hd := digitChar_facts n h10
      simp only [List.cons_append, List.nil_append]
      rw [takeDigits_step _ _ _ hd.1, hd.2]
      have harg : acc * 10 + (48 + n - 48) = acc * 10 ^ (List.length [digitChar n]) + n := by
        simp only [List.length_singleton, pow_one]
        omega
      rw [harg]
    · have heq : natCharsCore (fuel + 1) n = natCharsCore fuel (n / 10) ++ [digitChar (n % 10)] := by
        simp [natCharsCore, h10]
      rw [heq]
      have hfuel : n / 10 < fuel := by
        have h2 : n / 10 < n := Nat.div_lt_self (by omega) (by omega)
        omega
      rw [List.append_assoc]
      rw [ih (n / 10) acc ([digitChar (n % 10)] ++ rest) hfuel]
      have hd := digitChar_facts (n % 10) (by omega)
      simp only [List.singleton_append]
      rw [takeDigits_step _ _ _ hd.1, hd.2]
      have hlen : (natCharsCore fuel (n / 10) ++ [digitChar (n % 10)]).length =
          (natCharsCore fuel (n / 10)).length + 1 := by
        simp
      rw [hlen]
      have hmod48 : 48 + n % 10 - 48 = n % 10 := by omega
      rw [hmod48, pow_succ]
      have harith :
          (acc * 10 ^ (natCharsCore fuel (n / 10)).length + n / 10) * 10 + n % 10 =
            acc * (10 ^ (natCharsCore fuel (n / 10)).length * 10) + n := by
        calc (acc * 10 ^ (natCharsCore fuel (n / 10)).length + n / 10) * 10 + n % 10
            = acc * (10 ^ (natCharsCore fuel (n / 10)).length * 10) +
                (10 * (n / 10) + n % 10) := by ring
          _ = acc * (10 ^ (natCharsCore fuel (n / 10)).length * 10) + n := by
              rw [Nat.div_add_mod]
      rw [harith]

/-- The digit string of `n` is non-empty and starts with a digit. -/
theorem natCharsCore_head_digit :
    ∀ fuel n, n < fuel → ∃ c t2, natCharsCore fuel n = c :: t2 ∧ isDigitChar c = true := by
  intro fuel
  induction fuel with
  | zero =>
    intro n h
    omega
  | succ fuel ih =>
    intro n h
    by_cases h10 : n < 10
    · exact ⟨digitChar n, [], by simp [natCharsCore, h10], (digitChar_facts n h10).1⟩
    · have hfuel : n / 10 < fuel := by
        have h2 : n / 10 < n := Nat.div_lt_self (by omega) (by omega)
        omega
      obtain ⟨c, t2, he, hd⟩ := ih (n / 10) hfuel
      refine ⟨c, t2 ++ [digitChar (n % 10)], ?_, hd⟩
      simp [natCharsCore, h10, he]

/-- Parsing the decimal rendering of `n` followed by the closing brace
recovers `n` exactly. -/
theorem parseNumber_encodeNat (n : Nat) :
    parseNumber (encodeNat n ++ [closeBrace]) = some (n, [closeBrace]) := by
  obtain ⟨c, t2, he, hd⟩ := natCharsCore_head_digit (n + 1) n (by omega)
  have hcb : isDigitChar closeBrace = false := by decide
  have htd : takeDigits (encodeNat n ++ [closeBrace]) 0 = (n, [closeBrace]) := by
    have h1 := takeDigits_natCharsCore (n + 1) n 0 [closeBrace] (by omega)
    have h2 : takeDigits [closeBrace] (0 * 10 ^ (natCharsCore (n + 1) n).length + n) =
        (0 * 10 ^ (natCharsCore (n + 1) n).length + n, [closeBrace]) :=
      takeDigits_stop _ _ _ hcb
    rw [encodeNat, h1, h2]
    simp
  have hshape : encodeNat n ++ [closeBrace] = c :: (t2 ++ [closeBrace]) := by
    rw [encodeNat, he]
    rfl
  rw [hshape]
  simp only [parseNumber]
  rw [if_pos hd]
  rw [← hshape, htd]

/-- C5: serializing any Announcement (arbitrary name string, any 16-bit port)
and deserializing the bytes succeeds and reproduces the name and port
exactly. -/
theorem announcement_round_trip (nm : String) (port : Nat) (h : port < 65536) :
    from_slice (to_vec ⟨nm, port⟩) = some ⟨nm, port⟩ := by
  have h1 : to_vec ⟨nm, port⟩ =
      nameKey ++ (escapeString nm.data ++ '"' ::
        (portKey ++ (encodeNat port ++ [closeBrace]))) := by
    simp [to_vec]
  rw [h1]
  simp only [from_slice, dropTok_append, parseStringBody_escape, parseNumber_encodeNat]
  simp [h]

/-- Concrete instance of `announcement_round_trip` at name "Alice" and port
8080. -/
theorem announcement_round_trip_witness :
    8080 < 65536 ∧ from_slice (to_vec ⟨"Alice", 8080⟩) = some ⟨"Alice", 8080⟩ :=
  ⟨by omega, announcement_round_trip "Alice" 8080 (by omega)⟩
